import Mathlib

/-!
# Verification of the RAG retrieval core

Shallow embedding of the retrieval core of the repository:

* the similarity-search route handler (`POST` of the search route): scoring of stored
  chunks against the query embedding, the score sort with its tie-break comparator,
  and the two-pass per-document diversity selection;
* `cosineSimilarity`, `splitIntoSentences` and `chunkText` from `src/lib/openai.ts`.

Numbers that the source manipulates as JS floats are modelled as exact rationals
(for the search pipeline, where only comparisons and subtractions occur) or reals
(for `cosineSimilarity`, which needs square roots).  Strings are modelled as
`List Char`.
-/

namespace RagSearch

/-- A scored candidate chunk, as built by the search route after scoring:
the row joined from the chunk and document tables, plus its similarity.
The `content` and `documentTitle` fields are carried through the route unchanged
and never inspected, so they are omitted from the model. -/
structure ScoredChunk where
  chunkId : Nat
  documentId : Nat
  chunkIndex : Int
  similarity : ℚ
  deriving DecidableEq, Repr

/-- A candidate row fetched from the database: `embedding` is the stored serialized
vector (`none` models a SQL `NULL`; `JSON.parse` of the stored text is abstracted to
the vector itself). -/
structure ChunkRow where
  chunkId : Nat
  documentId : Nat
  chunkIndex : Int
  embedding : Option (List ℚ)
  deriving DecidableEq, Repr

/-- Builds the scored chunk for a row whose embedding is present
(the `{...chunk, similarity}` spread in the route). -/
def scoreRow (sim : List ℚ → List ℚ → ℚ) (queryEmbedding : List ℚ)
    (r : ChunkRow) (e : List ℚ) : ScoredChunk :=
  ⟨r.chunkId, r.documentId, r.chunkIndex, sim queryEmbedding e⟩

/-- The scoring step of the route: rows are mapped to `null` when their stored
embedding is `null` and to a scored chunk otherwise, then the `null`s are filtered
out (`.map(...).filter(c => c !== null)`).  The similarity function is a parameter
(the route uses `cosineSimilarity`, whose float values are not exactly
representable; every claim about this pipeline holds for an arbitrary score). -/
def scoreChunks (sim : List ℚ → List ℚ → ℚ) (queryEmbedding : List ℚ)
    (rows : List ChunkRow) : List ScoredChunk :=
  rows.filterMap fun r => r.embedding.map (scoreRow sim queryEmbedding r)

/-- The route's sort comparator, verbatim: score-descending when the scores differ
by more than `0.01`; `chunkIndex` ascending for near-ties inside one document;
score-descending otherwise.  Negative means `a` is ordered before `b`. -/
def compareScored (a b : ScoredChunk) : ℚ :=
  if 1/100 < |a.similarity - b.similarity| then b.similarity - a.similarity
  else if a.documentId = b.documentId then ((a.chunkIndex - b.chunkIndex : Int) : ℚ)
  else b.similarity - a.similarity

/-- Inserts `x` after every element it does not strictly precede: the insertion
step of a stable sort with respect to `compareScored`. -/
def insertScored (x : ScoredChunk) : List ScoredChunk → List ScoredChunk
  | [] => [x]
  | y :: ys => if compareScored x y < 0 then x :: y :: ys else y :: insertScored x ys

/-- The route's `.sort(comparator)`, modelled as a stable insertion sort.
ECMAScript leaves the order implementation-defined when the comparator is not
consistent, and `compareScored` is not transitive (the `0.01` tolerance is not an
equivalence); any stable sort is a legitimate model of the call. -/
def sortScored (l : List ScoredChunk) : List ScoredChunk :=
  l.foldl (fun acc x => insertScored x acc) []

/-- `const maxChunksPerDocument = 2`. -/
def maxChunksPerDocument : Nat := 2

/-- Pass 1 of the diversity selection: scan the candidates, admitting a chunk when
its document's running count is below the cap OR fewer than `limit` are selected
overall, stopping as soon as `limit` are selected.  `counts` models the
`documentChunkCount` map (`get(...) || 0` becomes a total function defaulting
to `0`). -/
def pass1Go (limit : Nat) :
    List ScoredChunk → List ScoredChunk → (Nat → Nat) → List ScoredChunk × (Nat → Nat)
  | [], sel, counts => (sel, counts)
  | c :: rest, sel, counts =>
    let currentCount := counts c.documentId
    if currentCount < maxChunksPerDocument ∨ sel.length < limit then
      let sel2 := sel ++ [c]
      let counts2 := fun d => if d = c.documentId then currentCount + 1 else counts d
      if limit ≤ sel2.length then (sel2, counts2)
      else pass1Go limit rest sel2 counts2
    else pass1Go limit rest sel counts

/-- Pass 2 of the diversity selection: scan the whole sorted list, skipping chunks
already selected (by `chunkId`), admitting chunks from documents still under the
cap, until `limit` is reached or the list ends. -/
def pass2Go (limit : Nat) :
    List ScoredChunk → List ScoredChunk → (Nat → Nat) → List ScoredChunk
  | [], sel, _ => sel
  | c :: rest, sel, counts =>
    if sel.any (fun s => s.chunkId = c.chunkId) then pass2Go limit rest sel counts
    else
      let currentCount := counts c.documentId
      if currentCount < maxChunksPerDocument then
        let sel2 := sel ++ [c]
        let counts2 := fun d => if d = c.documentId then currentCount + 1 else counts d
        if limit ≤ sel2.length then sel2 else pass2Go limit rest sel2 counts2
      else pass2Go limit rest sel counts

/-- The diversity selection of the route: Pass 1 over the top `limit * 3` sorted
candidates, then Pass 2 over the entire sorted list only if fewer than `limit`
were selected. -/
def selectChunks (sorted : List ScoredChunk) (limit : Nat) : List ScoredChunk :=
  let candidateChunks := sorted.take (limit * 3)
  let p1 := pass1Go limit candidateChunks [] (fun _ => 0)
  if p1.1.length < limit then pass2Go limit sorted p1.1 p1.2 else p1.1

/-- Sort followed by diversity selection: the part of the route after scoring. -/
def searchSelect (scored : List ScoredChunk) (limit : Nat) : List ScoredChunk :=
  selectChunks (sortScored scored) limit

/-- The whole search pipeline on a fetched candidate pool: score, sort, select. -/
def searchChunks (sim : List ℚ → List ℚ → ℚ) (queryEmbedding : List ℚ)
    (rows : List ChunkRow) (limit : Nat) : List ScoredChunk :=
  searchSelect (scoreChunks sim queryEmbedding rows) limit

/-! ## Basic lemmas about the pipeline -/

theorem length_insertScored (x : ScoredChunk) (l : List ScoredChunk) :
    (insertScored x l).length = l.length + 1 := by
  induction l with
  | nil => rfl
  | cons y ys ih =>
    simp only [insertScored]
    split <;> simp [ih]

theorem length_sortScored (l : List ScoredChunk) :
    (sortScored l).length = l.length := by
  suffices h : ∀ acc : List ScoredChunk,
      (l.foldl (fun acc x => insertScored x acc) acc).length = acc.length + l.length by
    simpa using h []
  induction l with
  | nil => simp
  | cons y ys ih =>
    intro acc
    rw [List.foldl_cons, ih (insertScored y acc), length_insertScored,
      List.length_cons]
    omega

theorem mem_insertScored {a x : ScoredChunk} {l : List ScoredChunk} :
    a ∈ insertScored x l ↔ a = x ∨ a ∈ l := by
  induction l with
  | nil => simp [insertScored]
  | cons y ys ih =>
    simp only [insertScored]
    split
    · simp
    · simp only [List.mem_cons, ih]
      tauto

theorem mem_sortScored {a : ScoredChunk} {l : List ScoredChunk} :
    a ∈ sortScored l ↔ a ∈ l := by
  suffices h : ∀ acc : List ScoredChunk,
      (a ∈ l.foldl (fun acc x => insertScored x acc) acc ↔ a ∈ acc ∨ a ∈ l) by
    simpa using h []
  induction l with
  | nil => simp
  | cons y ys ih =>
    intro acc
    simp only [List.foldl_cons, ih, mem_insertScored, List.mem_cons]
    tauto

theorem length_scoreChunks (sim : List ℚ → List ℚ → ℚ) (q : List ℚ)
    (rows : List ChunkRow) :
    (scoreChunks sim q rows).length = (rows.filter (fun r => r.embedding.isSome)).length := by
  induction rows with
  | nil => rfl
  | cons r rest ih =>
    cases h : r.embedding with
    | none => simp [scoreChunks, List.filterMap_cons, List.filter_cons, h] at ih ⊢; simpa using ih
    | some e => simp [scoreChunks, List.filterMap_cons, List.filter_cons, h] at ih ⊢; simpa using ih

/-- Pass 1 admits every candidate while fewer than `limit` are selected: the
running-count test is never the deciding conjunct. -/
theorem pass1Go_fill (limit : Nat) :
    ∀ (input sel : List ScoredChunk) (counts : Nat → Nat), sel.length < limit →
      (pass1Go limit input sel counts).1 = sel ++ input.take (limit - sel.length) := by
  intro input
  induction input with
  | nil => intro sel counts _; simp [pass1Go]
  | cons c rest ih =>
    intro sel counts hlt
    simp only [pass1Go]
    rw [if_pos (Or.inr hlt)]
    by_cases hstop : limit ≤ (sel ++ [c]).length
    · rw [if_pos hstop]
      have h1 : limit - sel.length = 1 := by simp at hstop; omega
      simp [h1]
    · rw [if_neg hstop]
      have h2 : (sel ++ [c]).length < limit := by omega
      rw [ih (sel ++ [c]) _ h2]
      have h3 : limit - sel.length = (limit - (sel ++ [c]).length) + 1 := by
        simp at h2 ⊢; omega
      rw [h3, List.take_succ_cons]
      simp

/-- If every element of the scan is already selected (by `chunkId`), Pass 2 adds
nothing. -/
theorem pass2Go_skip_all (limit : Nat) :
    ∀ (input sel : List ScoredChunk) (counts : Nat → Nat),
      (∀ c ∈ input, ∃ s ∈ sel, s.chunkId = c.chunkId) →
      pass2Go limit input sel counts = sel := by
  intro input
  induction input with
  | nil => intro sel counts _; rfl
  | cons c rest ih =>
    intro sel counts hall
    have hc : ∃ s ∈ sel, s.chunkId = c.chunkId := hall c (by simp)
    have hany : sel.any (fun s => s.chunkId = c.chunkId) = true := by
      rcases hc with ⟨s, hs, he⟩
      simp only [List.any_eq_true, decide_eq_true_eq]
      exact ⟨s, hs, he⟩
    simp only [pass2Go, hany, if_pos]
    exact ih sel counts (fun x hx => hall x (by simp [hx]))

/-- The selection step returns exactly the first `limit` elements of its input. -/
theorem selectChunks_eq_take (l : List ScoredChunk) (limit : Nat) :
    selectChunks l limit = l.take limit := by
  rcases Nat.eq_zero_or_pos limit with h0 | hpos
  · subst h0
    simp [selectChunks, pass1Go]
  · have hfill := pass1Go_fill limit (l.take (limit * 3)) [] (fun _ => 0) (by simpa using hpos)
    have htake : (l.take (limit * 3)).take limit = l.take limit := by
      rw [List.take_take]
      congr 1
      omega
    simp only [List.nil_append, List.length_nil, Nat.sub_zero] at hfill
    rw [htake] at hfill
    simp only [selectChunks, hfill]
    by_cases hlen : (l.take limit).length < limit
    · rw [if_pos hlen]
      have hll : l.length < limit := by
        simp [List.length_take] at hlen; omega
      have hfull : l.take limit = l := List.take_of_length_le (by omega)
      rw [hfull]
      rw [pass2Go_skip_all limit l l _ (fun c hc => ⟨c, hc, rfl⟩)]
    · rw [if_neg hlen]

/-! ## Comparator antisymmetry and adjacency of the sorted output -/

theorem compareScored_antisymm (a b : ScoredChunk) :
    compareScored b a = -compareScored a b := by
  unfold compareScored
  rw [abs_sub_comm b.similarity a.similarity]
  by_cases h1 : 1/100 < |a.similarity - b.similarity|
  · rw [if_pos h1, if_pos h1]; ring
  · rw [if_neg h1, if_neg h1]
    by_cases h2 : a.documentId = b.documentId
    · rw [if_pos h2, if_pos h2.symm]
      push_cast
      ring
    · rw [if_neg h2, if_neg (fun h => h2 h.symm)]
      ring

theorem chain'_insertScored (x : ScoredChunk) (l : List ScoredChunk)
    (h : l.Chain' (fun u v => compareScored u v ≤ 0)) :
    (insertScored x l).Chain' (fun u v => compareScored u v ≤ 0) := by
  induction l with
  | nil => simp [insertScored]
  | cons y ys ih =>
    simp only [insertScored]
    by_cases hxy : compareScored x y < 0
    · rw [if_pos hxy]
      exact List.chain'_cons.mpr ⟨le_of_lt hxy, h⟩
    · rw [if_neg hxy]
      have hyx : compareScored y x ≤ 0 := by
        have hanti := compareScored_antisymm x y
        have h0 : 0 ≤ compareScored x y := not_lt.mp hxy
        rw [hanti]
        linarith
      cases ys with
      | nil =>
        simp only [insertScored]
        exact List.chain'_pair.mpr hyx
      | cons z zs =>
        have hchain := List.chain'_cons.mp h
        have hrec := ih hchain.2
        simp only [insertScored] at hrec ⊢
        by_cases hxz : compareScored x z < 0
        · rw [if_pos hxz] at hrec ⊢
          exact List.chain'_cons.mpr ⟨hyx, hrec⟩
        · rw [if_neg hxz] at hrec ⊢
          exact List.chain'_cons.mpr ⟨hchain.1, hrec⟩

theorem chain'_sortScored (l : List ScoredChunk) :
    (sortScored l).Chain' (fun u v => compareScored u v ≤ 0) := by
  suffices h : ∀ acc : List ScoredChunk, acc.Chain' (fun u v => compareScored u v ≤ 0) →
      (l.foldl (fun acc x => insertScored x acc) acc).Chain'
        (fun u v => compareScored u v ≤ 0) by
    exact h [] (by simp)
  induction l with
  | nil => intro acc hacc; exact hacc
  | cons y ys ih =>
    intro acc hacc
    exact ih (insertScored y acc) (chain'_insertScored y acc hacc)

/-! ## Claim C2 -/

/-- C2: for every scored-candidate list and every limit, the two-pass diversity
selection returns exactly the first `min limit length` elements of the sorted
list, in order, and Pass 2 never adds an element that Pass 1 did not already
select (the selection is already complete after Pass 1). -/
theorem diversity_selection_is_take (l : List ScoredChunk) (limit : Nat) :
    selectChunks l limit = l.take limit ∧
    (selectChunks l limit).length = min limit l.length ∧
    selectChunks l limit = (pass1Go limit (l.take (limit * 3)) [] (fun _ => 0)).1 := by
  refine ⟨selectChunks_eq_take l limit, ?_, ?_⟩
  · rw [selectChunks_eq_take l limit, List.length_take]
  · rcases Nat.eq_zero_or_pos limit with h0 | hpos
    · subst h0
      simp [selectChunks, pass1Go]
    · have hfill := pass1Go_fill limit (l.take (limit * 3)) [] (fun _ => 0)
        (by simpa using hpos)
      simp only [List.nil_append, List.length_nil, Nat.sub_zero] at hfill
      rw [selectChunks_eq_take l limit, hfill, List.take_take]
      congr 1
      omega

/-! ## Claim C3 -/

/-- C3: the search returns exactly `min limit (number of embedded candidates)`
chunks, and returns fewer than `limit` only when the embedded candidate pool
itself is smaller than `limit` (this holds for every pool, in particular when at
least `limit` distinct documents have enough chunks). -/
theorem search_result_count (sim : List ℚ → List ℚ → ℚ) (q : List ℚ)
    (rows : List ChunkRow) (limit : Nat) :
    (searchChunks sim q rows limit).length
      = min limit (rows.filter (fun r => r.embedding.isSome)).length ∧
    ((searchChunks sim q rows limit).length < limit →
      (rows.filter (fun r => r.embedding.isSome)).length < limit) := by
  have hlen : (searchChunks sim q rows limit).length
      = min limit (rows.filter (fun r => r.embedding.isSome)).length := by
    unfold searchChunks searchSelect
    rw [selectChunks_eq_take, List.length_take, length_sortScored, length_scoreChunks]
  exact ⟨hlen, fun hlt => by omega⟩

/-- Concrete pool for the C3 witness: a single embedded row. -/
def rowsByCount : List ChunkRow := [⟨1, 1, 0, some [1]⟩]

theorem search_result_count_witness :
    (searchChunks (fun _ _ => 0) [] rowsByCount 5).length < 5 ∧
    (rowsByCount.filter (fun r => r.embedding.isSome)).length < 5 :=
  ⟨by decide, (search_result_count (fun _ _ => 0) [] rowsByCount 5).2 (by decide)⟩

/-! ## Claim C1 -/

/-- Failing input for the diversity cap: three distinct documents, each
contributing three scored chunks, every score gap above the `0.01` tolerance, and
`limit = 4`.  Document 1 owns the three highest scores. -/
def capPool : List ScoredChunk :=
  [⟨11, 1, 0, 9/10⟩, ⟨12, 1, 1, 8/10⟩, ⟨13, 1, 2, 7/10⟩,
   ⟨21, 2, 0, 6/10⟩, ⟨22, 2, 1, 5/10⟩, ⟨23, 2, 2, 4/10⟩,
   ⟨31, 3, 0, 3/10⟩, ⟨32, 3, 1, 2/10⟩, ⟨33, 3, 2, 1/10⟩]

/-- C1 fails on the code: on `capPool` with `limit = 4` the result set has size 4
and document 1 contributes 3 chunks, although capping it at 2 would still leave 4
admissible results (documents 2 and 3 have six chunks in the pool).  The Pass 1
admission test `count < 2 OR selected < limit` is always true before the limit is
reached, so the per-document cap is never enforced. -/
theorem diversity_cap_violated :
    (searchSelect capPool 4).map (fun c => c.documentId) = [1, 1, 1, 2] ∧
    (searchSelect capPool 4).length = 4 ∧
    ((capPool.map (fun c => c.documentId)).dedup = [1, 2, 3] ∧
      ∀ d ∈ [1, 2, 3], (capPool.filter (fun c => c.documentId = d)).length = 3) :=
  of_decide_eq_true (by with_unfolding_all rfl)

/-! ## Claim C4 -/

/-- The tie-break property the claim asserts of an ordered pair of the sorted
output: same document and scores within the `0.01` tolerance imply `chunkIndex`
order. -/
def tieRel (u v : ScoredChunk) : Prop :=
  u.documentId = v.documentId → |u.similarity - v.similarity| ≤ 1/100 →
    u.chunkIndex ≤ v.chunkIndex

instance : DecidableRel tieRel := fun u v => by unfold tieRel; infer_instance

/-- C4 as stated: in the sorted output, every pair (not only adjacent ones)
respects the tie-break. -/
def TieBreakClaim (l : List ScoredChunk) : Prop :=
  (sortScored l).Pairwise tieRel

instance (l : List ScoredChunk) : Decidable (TieBreakClaim l) := by
  unfold TieBreakClaim
  infer_instance

/-- Pool refuting C4: chunks 1 and 3 belong to document 1 with scores `0.292` and
`0.300` (within tolerance), chunk 2 of document 2 scores `0.295` between them.
The comparator orders chunk 3 before chunk 2 and chunk 2 before chunk 1 by score,
so the sort never compares chunks 3 and 1 directly and outputs chunk 3
(chunkIndex 5) before chunk 1 (chunkIndex 0). -/
def tiePool : List ScoredChunk :=
  [⟨1, 1, 0, 292/1000⟩, ⟨2, 2, 7, 295/1000⟩, ⟨3, 1, 5, 300/1000⟩]

/-- C4 is false as a property of all pairs of the sorted output: the comparator
is not transitive, and on `tiePool` the sorted output has the document-1 chunk
with `chunkIndex 5` before the one with `chunkIndex 0` while their scores are
within `0.01`. -/
theorem tie_break_counterexample : ¬ TieBreakClaim tiePool :=
  of_decide_eq_false (by with_unfolding_all rfl)

/-- C4 (amended): in the sorted output, every pair of ADJACENT candidates from
the same document with scores within `0.01` of each other is ordered by
ascending `chunkIndex`. -/
theorem tie_break_adjacent (l : List ScoredChunk) :
    (sortScored l).Chain' tieRel := by
  apply (chain'_sortScored l).imp
  intro u v hle
  intro hdoc htol
  unfold compareScored at hle
  rw [if_neg (not_lt.mpr htol), if_pos hdoc] at hle
  have hz : (u.chunkIndex - v.chunkIndex : Int) ≤ 0 := by exact_mod_cast hle
  omega

theorem tie_break_adjacent_witness : (sortScored tiePool).Chain' tieRel :=
  tie_break_adjacent tiePool

/-! ## Claim C10 -/

/-- Scoring ignores the rows whose stored embedding is `null`. -/
theorem scoreChunks_filter (sim : List ℚ → List ℚ → ℚ) (q : List ℚ)
    (rows : List ChunkRow) :
    scoreChunks sim q rows = scoreChunks sim q (rows.filter (fun r => r.embedding.isSome)) := by
  induction rows with
  | nil => rfl
  | cons r rest ih =>
    cases h : r.embedding with
    | none =>
      simp only [scoreChunks, List.filterMap_cons, List.filter_cons, h,
        Option.map_none', Option.isSome_none] at ih ⊢
      simpa [scoreChunks] using ih
    | some e =>
      simp only [scoreChunks, List.filterMap_cons, List.filter_cons, h,
        Option.map_some', Option.isSome_some] at ih ⊢
      simpa [scoreChunks, List.filterMap_cons, h] using ih

/-- C10: candidates whose stored embedding is `null` are never scored and never
appear in the result, and a pool with no embedded candidate (in particular an
empty pool) yields the empty result as a successful outcome. -/
theorem null_embeddings_dropped (sim : List ℚ → List ℚ → ℚ) (q : List ℚ)
    (rows : List ChunkRow) (limit : Nat) :
    scoreChunks sim q rows = scoreChunks sim q (rows.filter (fun r => r.embedding.isSome)) ∧
    (∀ c ∈ searchChunks sim q rows limit,
      ∃ r ∈ rows, ∃ e, r.embedding = some e ∧ c = scoreRow sim q r e) ∧
    (rows.filter (fun r => r.embedding.isSome) = [] → searchChunks sim q rows limit = []) := by
  refine ⟨scoreChunks_filter sim q rows, ?_, ?_⟩
  · intro c hc
    unfold searchChunks searchSelect at hc
    rw [selectChunks_eq_take] at hc
    have h1 : c ∈ sortScored (scoreChunks sim q rows) := List.take_subset _ _ hc
    have h2 : c ∈ scoreChunks sim q rows := mem_sortScored.mp h1
    rcases List.mem_filterMap.mp h2 with ⟨r, hr, hmap⟩
    rcases Option.map_eq_some'.mp hmap with ⟨e, he, hce⟩
    exact ⟨r, hr, e, he, hce.symm⟩
  · intro hnone
    unfold searchChunks searchSelect
    have h1 : scoreChunks sim q rows = [] := by
      rw [scoreChunks_filter sim q rows, hnone]
      rfl
    rw [h1, selectChunks_eq_take]
    simp [sortScored]

/-- Concrete pool for the C10 witness: one row with a `null` embedding. -/
def rowsUnembedded : List ChunkRow := [⟨1, 1, 0, none⟩]

theorem null_embeddings_dropped_witness :
    rowsUnembedded.filter (fun r => r.embedding.isSome) = [] ∧
    searchChunks (fun _ _ => 0) [] rowsUnembedded 5 = [] :=
  ⟨rfl, (null_embeddings_dropped (fun _ _ => 0) [] rowsUnembedded 5).2.2 rfl⟩

/-! ## `cosineSimilarity` (claim C9)

The function iterates over the index range of `vecA`; after the length guard the
zip below covers exactly the loop range, and the `b === undefined` skip in the
loop is dead code (the guard has already ensured equal lengths). -/

/-- `dotProduct` accumulated by the loop. -/
def dotProd (vecA vecB : List ℝ) : ℝ := ((vecA.zip vecB).map fun p => p.1 * p.2).sum

/-- `normA` accumulated by the loop (sum of squares of the `vecA` entries the
loop visits). -/
def normAcc (vecA vecB : List ℝ) : ℝ := ((vecA.zip vecB).map fun p => p.1 * p.1).sum

/-- `normB` accumulated by the loop. -/
def normBcc (vecA vecB : List ℝ) : ℝ := ((vecA.zip vecB).map fun p => p.2 * p.2).sum

/-- `cosineSimilarity` from `src/lib/openai.ts`: `0` on mismatched lengths,
otherwise `dot / (sqrt normA * sqrt normB)` guarded by a zero test on the
denominator. -/
noncomputable def cosineSimilarity (vecA vecB : List ℝ) : ℝ :=
  if vecA.length = vecB.length then
    let denominator := Real.sqrt (normAcc vecA vecB) * Real.sqrt (normBcc vecA vecB)
    if denominator = 0 then 0 else dotProd vecA vecB / denominator
  else 0

theorem normAcc_nonneg (a b : List ℝ) : 0 ≤ normAcc a b := by
  apply List.sum_nonneg
  intro x hx
  rcases List.mem_map.mp hx with ⟨p, _, rfl⟩
  exact mul_self_nonneg p.1

theorem normBcc_nonneg (a b : List ℝ) : 0 ≤ normBcc a b := by
  apply List.sum_nonneg
  intro x hx
  rcases List.mem_map.mp hx with ⟨p, _, rfl⟩
  exact mul_self_nonneg p.2

/-- C9: `cosineSimilarity` returns `0` on mismatched lengths and on a zero norm;
otherwise it returns `dot / (‖a‖ · ‖b‖)` and the division's denominator is
nonzero. -/
theorem cosineSimilarity_spec (a b : List ℝ) :
    (a.length ≠ b.length → cosineSimilarity a b = 0) ∧
    (a.length = b.length → (normAcc a b = 0 ∨ normBcc a b = 0) → cosineSimilarity a b = 0) ∧
    (a.length = b.length → normAcc a b ≠ 0 → normBcc a b ≠ 0 →
      Real.sqrt (normAcc a b) * Real.sqrt (normBcc a b) ≠ 0 ∧
      cosineSimilarity a b
        = dotProd a b / (Real.sqrt (normAcc a b) * Real.sqrt (normBcc a b))) := by
  refine ⟨?_, ?_, ?_⟩
  · intro hne
    unfold cosineSimilarity
    rw [if_neg hne]
  · intro heq hz
    unfold cosineSimilarity
    rw [if_pos heq]
    have hd : Real.sqrt (normAcc a b) * Real.sqrt (normBcc a b) = 0 := by
      rcases hz with h | h
      · rw [h, Real.sqrt_zero, zero_mul]
      · rw [h, Real.sqrt_zero, mul_zero]
    simp only [hd, if_pos]
  · intro heq ha hb
    have hapos : 0 < normAcc a b := lt_of_le_of_ne (normAcc_nonneg a b) (Ne.symm ha)
    have hbpos : 0 < normBcc a b := lt_of_le_of_ne (normBcc_nonneg a b) (Ne.symm hb)
    have hd : Real.sqrt (normAcc a b) * Real.sqrt (normBcc a b) ≠ 0 :=
      ne_of_gt (mul_pos (Real.sqrt_pos.mpr hapos) (Real.sqrt_pos.mpr hbpos))
    refine ⟨hd, ?_⟩
    unfold cosineSimilarity
    rw [if_pos heq]
    simp only [hd, if_neg]
    simp [hd]

theorem cosineSimilarity_spec_witness :
    cosineSimilarity [1, 2] [1] = 0 ∧
    cosineSimilarity [0, 0] [1, 1] = 0 ∧
    Real.sqrt (normAcc [3] [4]) * Real.sqrt (normBcc [3] [4]) ≠ 0 :=
  ⟨(cosineSimilarity_spec [1, 2] [1]).1 (by simp),
   (cosineSimilarity_spec [0, 0] [1, 1]).2.1 rfl (Or.inl (by simp [normAcc])),
   ((cosineSimilarity_spec [3] [4]).2.2 rfl (by simp [normAcc]) (by simp [normBcc])).1⟩

end RagSearch

namespace RagChunk

/-! ## The chunker: `splitIntoSentences` and `chunkText` from `src/lib/openai.ts`

Strings are modelled as `List Char`. -/

/-- The character class of the split regexes: `[。！？\n]`. -/
def isTerminator (c : Char) : Bool := c = '。' ∨ c = '！' ∨ c = '？' ∨ c = '\n'

/-- The whitespace removed by JS `String.prototype.trim` (the characters of that
class occurring in this domain: space, tab, carriage return, newline, ideographic
space). -/
def isSpaceChar (c : Char) : Bool := c = ' ' ∨ c = '\t' ∨ c = '\r' ∨ c = '\n' ∨ c = '　'

/-- JS `trim`: strip leading and trailing whitespace. -/
def trim (l : List Char) : List Char :=
  ((l.dropWhile isSpaceChar).reverse.dropWhile isSpaceChar).reverse

/-- Prepends a character to the first part of a part list. -/
def consHead (c : Char) : List (List Char) → List (List Char)
  | [] => [[c]]
  | p :: ps => (c :: p) :: ps

/-- `text.split(/([。！？\n]+)/)`: the alternating list of (possibly empty)
non-terminator segments and maximal nonempty terminator runs, starting and ending
with a segment; the capture group keeps the runs in the output.  A terminator is
merged into the following run exactly when the remainder starts with a terminator
(the recursive result then starts with an empty segment followed by a run). -/
def splitKeep : List Char → List (List Char)
  | [] => [[]]
  | c :: cs =>
    if isTerminator c then
      match splitKeep cs with
      | [] :: sep :: rest => [] :: (c :: sep) :: rest
      | ps => [] :: [c] :: ps
    else consHead c (splitKeep cs)

/-- `currentChunk.split(/[。！？\n]+/)` (no capture group): only the segments,
with runs of terminators acting as single separators. -/
def splitDrop : List Char → List (List Char)
  | [] => [[]]
  | [c] => if isTerminator c then [[], []] else [[c]]
  | c :: c2 :: cs =>
    if isTerminator c then
      if isTerminator c2 then splitDrop (c2 :: cs)
      else [] :: splitDrop (c2 :: cs)
    else consHead c (splitDrop (c2 :: cs))

/-- The accumulation loop of `splitIntoSentences`: empty parts are skipped
(`if (!part) continue`); a part on which the terminator regex tests true closes
the current sentence, which is pushed trimmed when it does not trim to nothing;
any other part extends the current sentence.  After the loop the residue is
pushed if it trims nonempty.  (`sentenceEndings.test` carries regex state in
`lastIndex` across calls; within one call starting at `lastIndex = 0` a separator
part always tests true — the preceding text part's failed test resets the state —
and a text part always tests false, so the test is modelled as "contains a
terminator".) -/
def sentencesLoop : List (List Char) → List Char → List (List Char)
  | [], cur => if trim cur = [] then [] else [trim cur]
  | p :: ps, cur =>
    if p = [] then sentencesLoop ps cur
    else if p.any isTerminator then
      if trim (cur ++ p) = [] then sentencesLoop ps (cur ++ p)
      else trim (cur ++ p) :: sentencesLoop ps []
    else sentencesLoop ps (cur ++ p)

/-- `splitIntoSentences` from `src/lib/openai.ts` (including the final
`filter(s => s.length > 0)`). -/
def splitIntoSentences (text : List Char) : List (List Char) :=
  (sentencesLoop (splitKeep text) []).filter (fun s => 0 < s.length)

/-- Pairs each segment of an alternating part list with its following terminator
run. -/
def pairParts : List (List Char) → List (List Char)
  | [] => []
  | [seg] => [seg]
  | seg :: sep :: rest => (seg ++ sep) :: pairParts rest

/-- Formalization of C7's description of the split: the input is cut at maximal
terminator runs, each run retained whole at the end of its preceding segment, and
empty or whitespace-only segments are dropped — with no further transformation of
the kept segments. -/
def claimSentences (text : List Char) : List (List Char) :=
  (pairParts (splitKeep text)).filter (fun s => decide (trim s ≠ []))

/-- The amended description of the split: as `claimSentences`, but every kept
sentence is additionally trimmed of surrounding whitespace, so whitespace
terminators (newlines) are not retained. -/
def specSentences (text : List Char) : List (List Char) :=
  ((pairParts (splitKeep text)).map trim).filter (fun s => decide (s ≠ []))

/-- The loop state of `chunkText`: the emitted chunks, the current buffer, and
the running length counter (which the source tracks separately from the buffer —
after overlap seeding it counts only the overlap sentence characters, not the
rejoining terminators). -/
structure ChunkState where
  chunks : List (List Char)
  cur : List Char
  curLen : Nat
  deriving DecidableEq, Repr

/-- The backward walk of the overlap computation: prepend trimmed sentences while
the accumulated length is below `ov` (the input is the reversed piece list, so
prepending restores forward order). -/
def overlapWalk (ov : Nat) : List (List Char) → List (List Char) → Nat → List (List Char) × Nat
  | [], acc, accLen => (acc, accLen)
  | p :: rest, acc, accLen =>
    if accLen < ov then
      let s := trim p
      if s = [] then overlapWalk ov rest acc accLen
      else overlapWalk ov rest (s :: acc) (accLen + s.length)
    else (acc, accLen)

/-- `overlapSentences.join('。')`. -/
def joinDot : List (List Char) → List Char
  | [] => []
  | [x] => x
  | x :: xs => x ++ '。' :: joinDot xs

/-- One iteration of the `for (const sentence of sentences)` loop of `chunkText`:
when appending the sentence would exceed `chunkSize` and the buffer is nonempty,
the trimmed buffer is emitted and the buffer is reseeded with the overlap
(the buffer's pieces, those that trim nonempty, walked backward to `ov`
characters, rejoined with `'。'` and given a trailing `'。'` when nonempty);
then the sentence is appended and the length counter increased. -/
def chunkStep (chunkSize ov : Nat) (st : ChunkState) (sentence : List Char) : ChunkState :=
  let sLen := sentence.length
  let st1 :=
    if chunkSize < st.curLen + sLen ∧ st.cur ≠ [] then
      let pieces := (splitDrop st.cur).filter (fun s => decide (trim s ≠ []))
      let walked := overlapWalk ov pieces.reverse [] 0
      let seed := joinDot walked.1 ++ (if walked.1 = [] then [] else ['。'])
      ⟨st.chunks ++ [trim st.cur], seed, walked.2⟩
    else st
  ⟨st1.chunks, st1.cur ++ sentence, st1.curLen + sLen⟩

/-- The chunk list accumulated by `chunkText` before the empty-result fallback
(the loop over all sentences plus the final push of the residue when it trims
nonempty). -/
def chunkCore (text : List Char) (chunkSize ov : Nat) : List (List Char) :=
  let st := (splitIntoSentences text).foldl (chunkStep chunkSize ov) ⟨[], [], 0⟩
  if trim st.cur = [] then st.chunks else st.chunks ++ [trim st.cur]

/-- `chunkText` from `src/lib/openai.ts` (call sites use 600/150 and 1000/200):
the accumulated chunks, or `[text]` untouched when no chunk was produced. -/
def chunkText (text : List Char) (chunkSize ov : Nat) : List (List Char) :=
  let chunks := chunkCore text chunkSize ov
  if 0 < chunks.length then chunks else [text]

/-! ## Claim C8 -/

/-- C8: for non-empty input the result is non-empty, and when the splitting
procedure produces zero chunks the result is the single-element list holding the
original untouched text. -/
theorem chunkText_nonempty (text : List Char) (chunkSize ov : Nat)
    (_h : text ≠ []) :
    chunkText text chunkSize ov ≠ [] ∧
    (chunkCore text chunkSize ov = [] → chunkText text chunkSize ov = [text]) := by
  unfold chunkText
  by_cases hc : chunkCore text chunkSize ov = []
  · rw [hc]
    simp
  · have hlen : 0 < (chunkCore text chunkSize ov).length := List.length_pos.mpr hc
    rw [if_pos hlen]
    exact ⟨hc, fun hco => absurd hco hc⟩

theorem chunkText_nonempty_witness :
    ([' '] : List Char) ≠ [] ∧ chunkCore [' '] 600 150 = [] ∧
    chunkText [' '] 600 150 = [[' ']] :=
  ⟨by decide, by decide, (chunkText_nonempty [' '] 600 150 (by decide)).2 (by decide)⟩

/-! ## Claim C5: the counterexamples -/

/-- C5 as stated, at one input: every chunk whose own sentences all have length
at most `targetSize` has length at most `targetSize`. -/
def ChunkSizeClaim (text : List Char) (targetSize ov : Nat) : Prop :=
  ∀ c ∈ chunkText text targetSize ov,
    (∀ s ∈ splitIntoSentences c, s.length ≤ targetSize) → c.length ≤ targetSize

/-- Two sentences of five characters each. -/
def textAB : List Char := ['a', 'a', 'a', 'a', '。', 'b', 'b', 'b', 'b', '。']

/-- Whitespace-only text longer than the target size. -/
def textSpaces : List Char := [' ', ' ', ' ', ' ', ' ', ' ', ' ']

/-- C5 fails: on `textAB` with `targetSize = 5, overlap = 3` the second chunk is
`"aaaa。bbbb。"` (the overlap seed plus the next sentence), of length 10 > 5,
although each of its sentences has length 5 ≤ 5; and on whitespace-only input the
fallback returns the whole 7-character text as a chunk containing no sentence at
all. -/
theorem chunk_size_counterexample :
    ¬ ChunkSizeClaim textAB 5 3 ∧ ¬ ChunkSizeClaim textSpaces 5 0 := by
  constructor
  · intro hcl
    have h2 := hcl (chunkText textAB 5 3).getLast! (by decide) (by decide)
    revert h2
    decide
  · intro hcl
    have h2 := hcl textSpaces (by decide) (by decide)
    revert h2
    decide

/-! ## Claim C7: the counterexample -/

/-- Text whose only terminator is a newline. -/
def textNewline : List Char := ['a', '\n', 'b']

/-- C7 fails as stated: on `"a\nb"` the newline terminator is not retained as
part of the preceding sentence — the sentences are pushed trimmed, which strips
whitespace terminators — so the output differs from the claim's description. -/
theorem sentence_split_counterexample :
    splitIntoSentences textNewline ≠ claimSentences textNewline ∧
    splitIntoSentences textNewline = [['a'], ['b']] ∧
    claimSentences textNewline = [['a', '\n'], ['b']] := by
  refine ⟨by decide, by decide, by decide⟩

/-! ## Properties of `trim` -/

theorem trim_nil : trim [] = [] := rfl

theorem trim_eq_nil_iff (l : List Char) :
    trim l = [] ↔ ∀ c ∈ l, isSpaceChar c = true := by
  unfold trim
  rw [List.reverse_eq_nil_iff, List.dropWhile_eq_nil_iff]
  constructor
  · intro h c hc
    rw [← List.takeWhile_append_dropWhile isSpaceChar l] at hc
    rcases List.mem_append.mp hc with h1 | h2
    · exact List.mem_takeWhile_imp h1
    · exact h c (List.mem_reverse.mpr h2)
  · intro h x hx
    exact h x ((List.dropWhile_suffix isSpaceChar).isInfix.subset (List.mem_reverse.mp hx))

theorem trim_append_ws (w l : List Char) (hw : ∀ c ∈ w, isSpaceChar c = true) :
    trim (w ++ l) = trim l := by
  have hd : List.dropWhile isSpaceChar (w ++ l) = List.dropWhile isSpaceChar l := by
    rw [List.dropWhile_append, List.isEmpty_iff.mpr (List.dropWhile_eq_nil_iff.mpr hw)]
    simp
  unfold trim
  rw [hd]

theorem trim_append_ws_right (l w : List Char) (hw : ∀ c ∈ w, isSpaceChar c = true) :
    trim (l ++ w) = trim l := by
  unfold trim
  rw [List.dropWhile_append]
  by_cases h : (l.dropWhile isSpaceChar).isEmpty = true
  · rw [if_pos h]
    have h1 : List.dropWhile isSpaceChar w = [] := List.dropWhile_eq_nil_iff.mpr hw
    have h2 : List.dropWhile isSpaceChar l = [] := List.isEmpty_iff.mp h
    rw [h1, h2]
  · rw [if_neg h]
    rw [List.reverse_append]
    have h3 : List.dropWhile isSpaceChar
          (w.reverse ++ (l.dropWhile isSpaceChar).reverse)
        = List.dropWhile isSpaceChar (l.dropWhile isSpaceChar).reverse := by
      rw [List.dropWhile_append,
        List.isEmpty_iff.mpr (List.dropWhile_eq_nil_iff.mpr
          (fun c hc => hw c (List.mem_reverse.mp hc)))]
      simp
    rw [h3]

theorem dropWhile_eq_cons_head (p : Char → Bool) :
    ∀ (l : List Char) (c : Char) (t : List Char), l.dropWhile p = c :: t → p c = false := by
  intro l
  induction l with
  | nil => intro c t h; cases h
  | cons x xs ih =>
    intro c t h
    rw [List.dropWhile_cons] at h
    by_cases hx : p x = true
    · rw [if_pos hx] at h; exact ih c t h
    · rw [if_neg hx] at h
      cases h
      simpa using hx

theorem trim_prefix_dropWhile (l : List Char) :
    trim l <+: l.dropWhile isSpaceChar := by
  unfold trim
  conv_rhs => rw [← List.reverse_reverse (l.dropWhile isSpaceChar)]
  exact List.reverse_prefix.mpr (List.dropWhile_suffix isSpaceChar)

theorem trim_within (l : List Char) : trim l <:+: l :=
  (trim_prefix_dropWhile l).isInfix.trans (List.dropWhile_suffix isSpaceChar).isInfix

theorem trim_length_le (l : List Char) : (trim l).length ≤ l.length :=
  (trim_within l).length_le

theorem trim_head_not_space (l : List Char) (h : trim l ≠ []) :
    ∃ c t, trim l = c :: t ∧ isSpaceChar c = false := by
  have hpre := trim_prefix_dropWhile l
  cases htl : trim l with
  | nil => exact absurd htl h
  | cons c t =>
    rw [htl] at hpre
    rcases hpre with ⟨r, hr⟩
    refine ⟨c, t, rfl, dropWhile_eq_cons_head isSpaceChar l c (t ++ r) ?_⟩
    rw [← hr]
    simp

theorem trim_last_not_space (l : List Char) (h : trim l ≠ []) :
    ∃ s c, trim l = s ++ [c] ∧ isSpaceChar c = false := by
  unfold trim at h ⊢
  cases he : (l.dropWhile isSpaceChar).reverse.dropWhile isSpaceChar with
  | nil => rw [he] at h; simp at h
  | cons c t =>
    refine ⟨t.reverse, c, ?_, dropWhile_eq_cons_head isSpaceChar _ c t he⟩
    simp

theorem dropWhile_append_clean (u x : List Char) (c : Char) (t : List Char)
    (hx : x = c :: t) (hc : isSpaceChar c = false) :
    (u ++ x).dropWhile isSpaceChar = u.dropWhile isSpaceChar ++ x := by
  rw [List.dropWhile_append]
  by_cases h : (u.dropWhile isSpaceChar).isEmpty = true
  · rw [if_pos h, hx, List.dropWhile_cons, if_neg (by simp [hc])]
    rw [List.isEmpty_iff] at h
    rw [h]
    simp
  · rw [if_neg h]

theorem trim_of_middle (u p v : List Char)
    (hh : ∃ c t, p = c :: t ∧ isSpaceChar c = false)
    (hl : ∃ s c, p = s ++ [c] ∧ isSpaceChar c = false) :
    trim (u ++ p ++ v)
      = u.dropWhile isSpaceChar ++ p ++ (v.reverse.dropWhile isSpaceChar).reverse := by
  rcases hh with ⟨c, t, hp1, hc⟩
  rcases hl with ⟨s, c2, hp2, hc2⟩
  unfold trim
  rw [List.append_assoc, dropWhile_append_clean u (p ++ v) c (t ++ v) (by rw [hp1]; rfl) hc]
  rw [← List.append_assoc, List.reverse_append, List.reverse_append]
  rw [dropWhile_append_clean v.reverse (p.reverse ++ (u.dropWhile isSpaceChar).reverse) c2
      (s.reverse ++ (u.dropWhile isSpaceChar).reverse) (by rw [hp2]; simp) hc2]
  simp [List.reverse_append]

theorem trim_eq_self (p : List Char)
    (hh : ∃ c t, p = c :: t ∧ isSpaceChar c = false)
    (hl : ∃ s c, p = s ++ [c] ∧ isSpaceChar c = false) :
    trim p = p := by
  have h := trim_of_middle [] p [] hh hl
  simpa using h

theorem trim_idem (l : List Char) : trim (trim l) = trim l := by
  by_cases h : trim l = []
  · rw [h]; rfl
  · exact trim_eq_self (trim l) (trim_head_not_space l h) (trim_last_not_space l h)

/-- A nonempty trim-fixed list keeps its head form under trimming extensions. -/
theorem trim_fixed_ends (p : List Char) (hfix : trim p = p) (hne : p ≠ []) :
    (∃ c t, p = c :: t ∧ isSpaceChar c = false) ∧
    (∃ s c, p = s ++ [c] ∧ isSpaceChar c = false) := by
  have htne : trim p ≠ [] := by rw [hfix]; exact hne
  constructor
  · rcases trim_head_not_space p htne with ⟨c, t, h1, h2⟩
    exact ⟨c, t, by rw [← hfix, h1], h2⟩
  · rcases trim_last_not_space p htne with ⟨s, c, h1, h2⟩
    exact ⟨s, c, by rw [← hfix, h1], h2⟩

theorem trim_prefix_mono (p l : List Char) (hp : p <+: l)
    (hfix : trim p = p) (hne : p ≠ []) : p <+: trim l := by
  rcases hp with ⟨r, hr⟩
  rcases trim_fixed_ends p hfix hne with ⟨hh, hl2⟩
  have h := trim_of_middle [] p r hh hl2
  simp only [List.nil_append, List.dropWhile_nil] at h
  rw [← hr, h]
  exact ⟨(r.reverse.dropWhile isSpaceChar).reverse, rfl⟩

theorem trim_infix_mono (p l : List Char) (hp : p <:+: l)
    (hfix : trim p = p) (hne : p ≠ []) : p <:+: trim l := by
  rcases hp with ⟨u, v, huv⟩
  rcases trim_fixed_ends p hfix hne with ⟨hh, hl2⟩
  have h := trim_of_middle u p v hh hl2
  rw [← huv, h]
  exact ⟨u.dropWhile isSpaceChar, (v.reverse.dropWhile isSpaceChar).reverse, rfl⟩

/-! ## `splitKeep` produces alternating segments and terminator runs -/

/-- Well-formedness of a part list: segments (terminator-free) alternating with
nonempty terminator runs, starting and ending with a segment. -/
inductive AltParts : List (List Char) → Prop
  | last (seg : List Char) (hseg : ∀ c ∈ seg, isTerminator c = false) : AltParts [seg]
  | cons (seg sep : List Char) (rest : List (List Char))
      (hseg : ∀ c ∈ seg, isTerminator c = false)
      (hsepne : sep ≠ [])
      (hsep : ∀ c ∈ sep, isTerminator c = true)
      (hrest : AltParts rest) : AltParts (seg :: sep :: rest)

theorem altParts_splitKeep (l : List Char) : AltParts (splitKeep l) := by
  induction l with
  | nil => exact AltParts.last [] (by simp)
  | cons c cs ih =>
    by_cases hc : isTerminator c = true
    · simp only [splitKeep, hc, if_true]
      cases hsk : splitKeep cs with
      | nil => rw [hsk] at ih; cases ih
      | cons p ps =>
        rw [hsk] at ih
        cases p with
        | cons c2 t2 =>
          exact AltParts.cons [] [c] ((c2 :: t2) :: ps) (by simp) (by simp)
            (by intro x hx; rcases List.mem_singleton.mp hx with rfl; exact hc) ih
        | nil =>
          cases ps with
          | nil =>
            exact AltParts.cons [] [c] [[]] (by simp) (by simp)
              (by intro x hx; rcases List.mem_singleton.mp hx with rfl; exact hc) ih
          | cons sep rest =>
            cases ih with
            | cons seg2 sep2 rest2 hseg2 hsepne2 hsep2 hrest2 =>
              exact AltParts.cons [] (c :: sep) rest (by simp) (by simp)
                (by
                  intro x hx
                  rcases List.mem_cons.mp hx with rfl | hx2
                  · exact hc
                  · exact hsep2 x hx2) hrest2
    · have hc' : isTerminator c = false := by simpa using hc
      simp only [splitKeep, hc', Bool.false_eq_true, if_false]
      generalize hq : splitKeep cs = q at ih ⊢
      cases ih with
      | last seg hseg =>
        refine AltParts.last (c :: seg) ?_
        intro x hx
        rcases List.mem_cons.mp hx with rfl | hx2
        · exact hc'
        · exact hseg x hx2
      | cons seg sep rest hseg hsepne hsep hrest =>
        refine AltParts.cons (c :: seg) sep rest ?_ hsepne hsep hrest
        intro x hx
        rcases List.mem_cons.mp hx with rfl | hx2
        · exact hc'
        · exact hseg x hx2

/-! ## The sentence loop computes the trimmed paired segments -/

theorem sentencesLoop_eq {parts : List (List Char)} (hparts : AltParts parts) :
    ∀ cur, (∀ c ∈ cur, isSpaceChar c = true) →
      sentencesLoop parts cur
        = ((pairParts parts).map trim).filter (fun s => decide (s ≠ [])) := by
  induction hparts with
  | last seg hseg =>
    intro cur hcur
    by_cases hsegnil : seg = []
    · subst hsegnil
      simp only [sentencesLoop, if_pos rfl]
      rw [if_pos (trim_eq_nil_iff cur |>.mpr hcur)]
      simp [pairParts, trim_nil]
    · have hany : seg.any isTerminator = false := by
        rw [← Bool.not_eq_true, List.any_eq_true]
        rintro ⟨x, hx, hterm⟩
        rw [hseg x hx] at hterm
        cases hterm
      simp only [sentencesLoop, if_neg hsegnil, hany, Bool.false_eq_true, if_false]
      have htr : trim (cur ++ seg) = trim seg := trim_append_ws cur seg hcur
      rw [htr]
      by_cases hts : trim seg = []
      · rw [if_pos hts]
        simp [pairParts, hts]
      · rw [if_neg hts]
        simp [pairParts, hts]
  | cons seg sep rest hseg hsepne hsep hrest ih =>
    intro cur hcur
    have hstep1 : sentencesLoop (seg :: sep :: rest) cur
        = sentencesLoop (sep :: rest) (cur ++ seg) := by
      by_cases hsegnil : seg = []
      · subst hsegnil
        simp [sentencesLoop]
      · have hany : seg.any isTerminator = false := by
          rw [← Bool.not_eq_true, List.any_eq_true]
          rintro ⟨x, hx, hterm⟩
          rw [hseg x hx] at hterm
          cases hterm
        simp only [sentencesLoop, if_neg hsegnil, hany, Bool.false_eq_true, if_false]
    rw [hstep1]
    have hanysep : sep.any isTerminator = true := by
      cases sep with
      | nil => exact absurd rfl hsepne
      | cons s0 stail => exact List.any_eq_true.mpr ⟨s0, by simp, hsep s0 (by simp)⟩
    have htr : trim (cur ++ seg ++ sep) = trim (seg ++ sep) := by
      rw [List.append_assoc]
      exact trim_append_ws cur (seg ++ sep) hcur
    simp only [sentencesLoop, if_neg hsepne, hanysep, if_true]
    rw [htr]
    by_cases hts : trim (seg ++ sep) = []
    · rw [if_pos hts]
      have hcur2 : ∀ c ∈ cur ++ seg ++ sep, isSpaceChar c = true := by
        rw [← trim_eq_nil_iff]
        rw [htr]
        exact hts
      rw [ih (cur ++ seg ++ sep) hcur2]
      simp [pairParts, hts]
    · rw [if_neg hts]
      rw [ih [] (by simp)]
      simp [pairParts, hts]

/-- The loop-plus-filter pipeline of `splitIntoSentences` equals the direct
description: trimmed paired segments with the empties dropped. -/
theorem splitIntoSentences_eq_spec (text : List Char) :
    splitIntoSentences text = specSentences text := by
  unfold splitIntoSentences specSentences
  rw [sentencesLoop_eq (altParts_splitKeep text) [] (by simp)]
  rw [List.filter_eq_self.mpr]
  intro s hs
  have h2 := (List.mem_filter.mp hs).2
  simp only [decide_eq_true_eq] at h2
  simpa [List.length_pos] using h2

/-- C7 (amended): the sentence split cuts at maximal terminator runs, keeps each
run with its preceding segment, then trims each sentence of surrounding
whitespace (so whitespace terminators — newlines — are not retained) and drops
the sentences that trim to nothing; every returned sentence is non-empty. -/
theorem sentence_split_spec (text : List Char) :
    splitIntoSentences text = specSentences text ∧
    ∀ s ∈ splitIntoSentences text, s ≠ [] := by
  refine ⟨splitIntoSentences_eq_spec text, ?_⟩
  intro s hs
  rw [splitIntoSentences_eq_spec text] at hs
  unfold specSentences at hs
  have h2 := (List.mem_filter.mp hs).2
  simpa using h2

theorem sentence_split_spec_witness :
    splitIntoSentences ['a', '。', 'b'] = specSentences ['a', '。', 'b'] ∧
    (['a', '。'] : List Char) ≠ [] :=
  ⟨(sentence_split_spec ['a', '。', 'b']).1,
   (sentence_split_spec ['a', '。', 'b']).2 ['a', '。'] (by decide)⟩

/-- Every produced sentence is trim-fixed. -/
theorem splitIntoSentences_trim_fixed (text : List Char) :
    ∀ s ∈ splitIntoSentences text, trim s = s := by
  intro s hs
  rw [splitIntoSentences_eq_spec text] at hs
  unfold specSentences at hs
  rcases List.mem_filter.mp hs with ⟨hmem, _⟩
  rcases List.mem_map.mp hmem with ⟨x, _, rfl⟩
  exact trim_idem x

/-! ## Claim C5 (amended): the size bound without overlap -/

theorem overlapWalk_zero (rev acc : List (List Char)) (accLen : Nat) :
    overlapWalk 0 rev acc accLen = (acc, accLen) := by
  cases rev with
  | nil => rfl
  | cons p rest => simp [overlapWalk]

/-- With `overlap = 0` the backward walk collects nothing, so the reseeded buffer
is empty and the loop step simplifies. -/
theorem chunkStep_zero_overlap (chunkSize : Nat) (st : ChunkState) (s : List Char) :
    chunkStep chunkSize 0 st s =
      if chunkSize < st.curLen + s.length ∧ st.cur ≠ [] then
        ⟨st.chunks ++ [trim st.cur], s, s.length⟩
      else ⟨st.chunks, st.cur ++ s, st.curLen + s.length⟩ := by
  by_cases h : chunkSize < st.curLen + s.length ∧ st.cur ≠ []
  · simp [chunkStep, h, overlapWalk_zero, joinDot]
  · simp [chunkStep, h]

/-- Size invariant of the `chunkText` loop at `overlap = 0`: emitted chunks fit
the bound or are over-long sentences, and the buffer length matches the counter
and obeys the same dichotomy. -/
def SizeInv (S : List (List Char)) (chunkSize : Nat) (st : ChunkState) : Prop :=
  (∀ c ∈ st.chunks, c.length ≤ chunkSize ∨ (c ∈ S ∧ chunkSize < c.length)) ∧
  st.cur.length = st.curLen ∧
  (st.curLen ≤ chunkSize ∨ (st.cur ∈ S ∧ chunkSize < st.curLen))

theorem sizeInv_step (S : List (List Char)) (chunkSize : Nat)
    (hS : ∀ s ∈ S, trim s = s) (st : ChunkState) (s : List Char)
    (hsS : s ∈ S) (hinv : SizeInv S chunkSize st) :
    SizeInv S chunkSize (chunkStep chunkSize 0 st s) := by
  rcases hinv with ⟨hchunks, hlen, hcur⟩
  rw [chunkStep_zero_overlap]
  unfold SizeInv
  by_cases h : chunkSize < st.curLen + s.length ∧ st.cur ≠ []
  · rw [if_pos h]
    dsimp only
    refine ⟨?_, rfl, ?_⟩
    · intro c hc
      rcases List.mem_append.mp hc with hc1 | hc2
      · exact hchunks c hc1
      · rcases List.mem_singleton.mp hc2 with rfl
        rcases hcur with hle | ⟨hmem, hgt⟩
        · left
          have h1 : (trim st.cur).length ≤ st.cur.length := trim_length_le _
          omega
        · right
          rw [hS st.cur hmem]
          exact ⟨hmem, by omega⟩
    · by_cases hs : s.length ≤ chunkSize
      · exact Or.inl hs
      · exact Or.inr ⟨hsS, by omega⟩
  · rw [if_neg h]
    dsimp only
    refine ⟨hchunks, by simp [hlen], ?_⟩
    by_cases hA : chunkSize < st.curLen + s.length
    · have hcurnil : st.cur = [] := by
        by_cases hB : st.cur = []
        · exact hB
        · exact absurd ⟨hA, hB⟩ h
      have hlen0 : st.curLen = 0 := by
        rw [hcurnil] at hlen
        simpa using hlen.symm
      rw [hcurnil, hlen0]
      simp only [List.nil_append, Nat.zero_add]
      by_cases hs : s.length ≤ chunkSize
      · exact Or.inl hs
      · exact Or.inr ⟨hsS, by omega⟩
    · exact Or.inl (by omega)

theorem sizeInv_foldl (S : List (List Char)) (chunkSize : Nat)
    (hS : ∀ s ∈ S, trim s = s) :
    ∀ (sents : List (List Char)), (∀ s ∈ sents, s ∈ S) →
      ∀ st, SizeInv S chunkSize st →
        SizeInv S chunkSize (sents.foldl (chunkStep chunkSize 0) st) := by
  intro sents
  induction sents with
  | nil => intro _ st h; exact h
  | cons s rest ih =>
    intro hmem st h
    exact ih (fun x hx => hmem x (by simp [hx])) _
      (sizeInv_step S chunkSize hS st s (hmem s (by simp)) h)

/-- C5 (amended): with `overlapSize = 0` every chunk has length at most
`targetSize`, except chunks that are a single sentence longer than `targetSize`
and the untouched original text returned by the zero-chunks fallback.  (With
positive overlap the bound fails without any over-long sentence — the seed can
double a chunk, see `chunk_size_counterexample`.) -/
theorem chunk_size_bound_no_overlap (text : List Char) (chunkSize : Nat) :
    ∀ c ∈ chunkText text chunkSize 0,
      c.length ≤ chunkSize ∨
      (c ∈ splitIntoSentences text ∧ chunkSize < c.length) ∨
      c = text := by
  intro c hc
  have hfix : ∀ s ∈ splitIntoSentences text, trim s = s :=
    splitIntoSentences_trim_fixed text
  have hinv0 : SizeInv (splitIntoSentences text) chunkSize ⟨[], [], 0⟩ :=
    ⟨by simp, rfl, Or.inl (by simp)⟩
  have hinv := sizeInv_foldl (splitIntoSentences text) chunkSize hfix
    (splitIntoSentences text) (fun x hx => hx) _ hinv0
  rcases hinv with ⟨hchunks, hlen, hcur⟩
  have hcoreEq : chunkCore text chunkSize 0 =
      if trim ((splitIntoSentences text).foldl (chunkStep chunkSize 0) ⟨[], [], 0⟩).cur = []
      then ((splitIntoSentences text).foldl (chunkStep chunkSize 0) ⟨[], [], 0⟩).chunks
      else ((splitIntoSentences text).foldl (chunkStep chunkSize 0) ⟨[], [], 0⟩).chunks
        ++ [trim ((splitIntoSentences text).foldl (chunkStep chunkSize 0) ⟨[], [], 0⟩).cur] := rfl
  have htextEq : chunkText text chunkSize 0 =
      if 0 < (chunkCore text chunkSize 0).length then chunkCore text chunkSize 0
      else [text] := rfl
  rw [htextEq] at hc
  by_cases hfall : 0 < (chunkCore text chunkSize 0).length
  · rw [if_pos hfall, hcoreEq] at hc
    by_cases htc :
        trim ((splitIntoSentences text).foldl (chunkStep chunkSize 0) ⟨[], [], 0⟩).cur = []
    · rw [if_pos htc] at hc
      rcases hchunks c hc with h1 | h2
      · exact Or.inl h1
      · exact Or.inr (Or.inl h2)
    · rw [if_neg htc] at hc
      rcases List.mem_append.mp hc with hc1 | hc2
      · rcases hchunks c hc1 with h1 | h2
        · exact Or.inl h1
        · exact Or.inr (Or.inl h2)
      · rcases List.mem_singleton.mp hc2 with rfl
        rcases hcur with hle | ⟨hmem, hgt⟩
        · have h1 := trim_length_le
            ((splitIntoSentences text).foldl (chunkStep chunkSize 0) ⟨[], [], 0⟩).cur
          exact Or.inl (by omega)
        · rw [hfix _ hmem]
          exact Or.inr (Or.inl ⟨hmem, by omega⟩)
  · rw [if_neg hfall] at hc
    rcases List.mem_singleton.mp hc with rfl
    exact Or.inr (Or.inr rfl)

theorem chunk_size_bound_witness :
    (['a', '。'] : List Char) ∈ chunkText ['a', '。'] 5 0 ∧
    ((['a', '。'] : List Char).length ≤ 5 ∨
      ((['a', '。'] : List Char) ∈ splitIntoSentences ['a', '。'] ∧
        5 < (['a', '。'] : List Char).length) ∨
      (['a', '。'] : List Char) = ['a', '。']) :=
  ⟨by decide, chunk_size_bound_no_overlap ['a', '。'] 5 ['a', '。'] (by decide)⟩

/-! ## Claim C6: structure of `splitDrop` -/

/-- Structure of the pieces of `splitDrop`: the first part is a prefix of the
input, every later part is an infix, and no part contains a terminator. -/
theorem splitDrop_parts (l : List Char) : ∃ p0 ps, splitDrop l = p0 :: ps ∧
    p0 <+: l ∧ (∀ p ∈ ps, p <:+: l) ∧
    (∀ p ∈ p0 :: ps, ∀ c ∈ p, isTerminator c = false) := by
  induction l with
  | nil => exact ⟨[], [], rfl, List.nil_prefix, by simp, by simp⟩
  | cons c cs ih =>
    cases cs with
    | nil =>
      by_cases hc : isTerminator c = true
      · refine ⟨[], [[]], by simp [splitDrop, hc], List.nil_prefix, ?_, ?_⟩
        · intro p hp
          rcases List.mem_singleton.mp hp with rfl
          exact ⟨[c], [], by simp⟩
        · intro p hp c2 hc2
          rcases List.mem_cons.mp hp with rfl | hp2
          · cases hc2
          · rcases List.mem_singleton.mp hp2 with rfl
            cases hc2
      · have hc' : isTerminator c = false := by simpa using hc
        refine ⟨[c], [], by simp [splitDrop, hc'], List.prefix_refl _, by simp, ?_⟩
        intro p hp c2 hc2
        rcases List.mem_singleton.mp hp with rfl
        rcases List.mem_singleton.mp hc2 with rfl
        exact hc'
    | cons c2 cs2 =>
      rcases ih with ⟨p0, ps, hsd, hpre, hinf, hterm⟩
      by_cases hc : isTerminator c = true
      · by_cases hc2 : isTerminator c2 = true
        · have heq : splitDrop (c :: c2 :: cs2) = splitDrop (c2 :: cs2) := by
            simp [splitDrop, hc, hc2]
          have hp0nil : p0 = [] := by
            cases hp0 : p0 with
            | nil => rfl
            | cons x xs =>
              exfalso
              rcases hpre with ⟨t, ht⟩
              rw [hp0, List.cons_append] at ht
              have hx : x = c2 := (List.cons_eq_cons.mp ht).1
              have hxterm := hterm p0 (by simp) x (by rw [hp0]; simp)
              rw [hx, hc2] at hxterm
              cases hxterm
          refine ⟨p0, ps, by rw [heq, hsd], ?_, ?_, hterm⟩
          · rw [hp0nil]
            exact List.nil_prefix
          · intro p hp
            exact List.infix_cons (hinf p hp)
        · have hc2' : isTerminator c2 = false := by simpa using hc2
          have heq : splitDrop (c :: c2 :: cs2) = [] :: splitDrop (c2 :: cs2) := by
            simp [splitDrop, hc, hc2']
          refine ⟨[], p0 :: ps, by rw [heq, hsd], List.nil_prefix, ?_, ?_⟩
          · intro p hp
            rcases List.mem_cons.mp hp with rfl | hp2
            · exact List.infix_cons hpre.isInfix
            · exact List.infix_cons (hinf p hp2)
          · intro p hp c3 hc3
            rcases List.mem_cons.mp hp with rfl | hp2
            · cases hc3
            · exact hterm p hp2 c3 hc3
      · have hc' : isTerminator c = false := by simpa using hc
        have heq : splitDrop (c :: c2 :: cs2) = consHead c (splitDrop (c2 :: cs2)) := by
          simp [splitDrop, hc']
        rw [hsd] at heq
        refine ⟨c :: p0, ps, by rw [heq]; rfl, ?_, ?_, ?_⟩
        · rcases hpre with ⟨t, ht⟩
          exact ⟨t, by rw [List.cons_append, ht]⟩
        · intro p hp
          exact List.infix_cons (hinf p hp)
        · intro p hp c3 hc3
          rcases List.mem_cons.mp hp with rfl | hp2
          · rcases List.mem_cons.mp hc3 with rfl | hc4
            · exact hc'
            · exact hterm p0 (by simp) c3 hc4
          · exact hterm p (List.mem_cons_of_mem _ hp2) c3 hc3

/-- Every non-terminator character of the input occurs in some piece. -/
theorem mem_splitDrop_of_mem (l : List Char) (ch : Char) (hc : ch ∈ l)
    (hterm : isTerminator ch = false) : ∃ p ∈ splitDrop l, ch ∈ p := by
  induction l with
  | nil => cases hc
  | cons x cs ih =>
    cases cs with
    | nil =>
      rcases List.mem_singleton.mp hc with rfl
      refine ⟨[ch], ?_, by simp⟩
      simp [splitDrop, hterm]
    | cons c2 cs2 =>
      rcases List.mem_cons.mp hc with rfl | hctail
      · have heq : splitDrop (ch :: c2 :: cs2) = consHead ch (splitDrop (c2 :: cs2)) := by
          simp [splitDrop, hterm]
        rcases splitDrop_parts (c2 :: cs2) with ⟨p0, ps, hsd, _, _, _⟩
        rw [heq, hsd]
        exact ⟨ch :: p0, by simp [consHead], by simp⟩
      · rcases ih hctail with ⟨p, hp, hcp⟩
        by_cases hx : isTerminator x = true
        · by_cases hx2 : isTerminator c2 = true
          · have heq : splitDrop (x :: c2 :: cs2) = splitDrop (c2 :: cs2) := by
              simp [splitDrop, hx, hx2]
            exact ⟨p, by rw [heq]; exact hp, hcp⟩
          · have hx2' : isTerminator c2 = false := by simpa using hx2
            have heq : splitDrop (x :: c2 :: cs2) = [] :: splitDrop (c2 :: cs2) := by
              simp [splitDrop, hx, hx2']
            exact ⟨p, by rw [heq]; exact List.mem_cons_of_mem _ hp, hcp⟩
        · have hx' : isTerminator x = false := by simpa using hx
          have heq : splitDrop (x :: c2 :: cs2) = consHead x (splitDrop (c2 :: cs2)) := by
            simp [splitDrop, hx']
          rcases splitDrop_parts (c2 :: cs2) with ⟨p0, ps, hsd, _, _, _⟩
          rw [heq, hsd]
          rw [hsd] at hp
          rcases List.mem_cons.mp hp with rfl | hp2
          · exact ⟨x :: p, by simp [consHead], List.mem_cons_of_mem _ hcp⟩
          · exact ⟨p, by simp [consHead, hp2], hcp⟩

theorem splitDrop_mem_within (l q : List Char) (hq : q ∈ splitDrop l) : q <:+: l := by
  rcases splitDrop_parts l with ⟨p0, ps, hsd, hpre, hinf, _⟩
  rw [hsd] at hq
  rcases List.mem_cons.mp hq with rfl | hq2
  · exact hpre.isInfix
  · exact hinf q hq2

theorem splitDrop_mem_noTerm (l q : List Char) (hq : q ∈ splitDrop l) :
    ∀ c ∈ q, isTerminator c = false := by
  rcases splitDrop_parts l with ⟨p0, ps, hsd, _, _, hterm⟩
  rw [hsd] at hq
  exact hterm q hq

/-- The full sentences of a string: the segments of the terminator split that do
not trim to nothing, taken trimmed (the values the overlap walk draws from). -/
def sentencePieces (l : List Char) : List (List Char) :=
  ((splitDrop l).filter (fun s => decide (trim s ≠ []))).map trim

theorem sentencePieces_cons_ws (c : Char) (hc : isSpaceChar c = true) (l : List Char) :
    sentencePieces (c :: l) = sentencePieces l := by
  cases l with
  | nil =>
    by_cases ht : isTerminator c = true
    · simp [sentencePieces, splitDrop, ht, trim_nil]
    · have ht' : isTerminator c = false := by simpa using ht
      have htr : trim [c] = [] := (trim_eq_nil_iff [c]).mpr
        (by intro x hx; rcases List.mem_singleton.mp hx with rfl; exact hc)
      simp [sentencePieces, splitDrop, ht', htr, trim_nil]
  | cons c2 cs =>
    by_cases ht : isTerminator c = true
    · by_cases ht2 : isTerminator c2 = true
      · have heq : splitDrop (c :: c2 :: cs) = splitDrop (c2 :: cs) := by
          simp [splitDrop, ht, ht2]
        simp [sentencePieces, heq]
      · have ht2' : isTerminator c2 = false := by simpa using ht2
        have heq : splitDrop (c :: c2 :: cs) = [] :: splitDrop (c2 :: cs) := by
          simp [splitDrop, ht, ht2']
        simp [sentencePieces, heq, List.filter_cons, trim_nil]
    · have ht' : isTerminator c = false := by simpa using ht
      have heq : splitDrop (c :: c2 :: cs) = consHead c (splitDrop (c2 :: cs)) := by
        simp [splitDrop, ht']
      rcases splitDrop_parts (c2 :: cs) with ⟨p0, ps, hsd, _, _, _⟩
      rw [sentencePieces, sentencePieces, heq, hsd]
      have hch : consHead c (p0 :: ps) = (c :: p0) :: ps := rfl
      have htr : trim (c :: p0) = trim p0 := trim_append_ws [c] p0
        (by intro x hx; rcases List.mem_singleton.mp hx with rfl; exact hc)
      rw [hch]
      by_cases h0 : trim p0 = [] <;> simp [List.filter_cons, htr, h0]

theorem sentencePieces_ws_front (w l : List Char) (hw : ∀ c ∈ w, isSpaceChar c = true) :
    sentencePieces (w ++ l) = sentencePieces l := by
  induction w with
  | nil => rfl
  | cons c w2 ih =>
    rw [List.cons_append, sentencePieces_cons_ws c (hw c (by simp)) (w2 ++ l)]
    exact ih (fun x hx => hw x (by simp [hx]))

/-- Appending one character either merges into the final terminator run, opens a
fresh empty segment, or extends the last segment. -/
theorem splitDrop_append_char (c : Char) : ∀ l : List Char,
    splitDrop (l ++ [c]) = splitDrop l ∨
    splitDrop (l ++ [c]) = splitDrop l ++ [[]] ∨
    ∃ init last2, splitDrop l = init ++ [last2] ∧
      splitDrop (l ++ [c]) = init ++ [last2 ++ [c]] := by
  intro l
  induction l with
  | nil =>
    by_cases ht : isTerminator c = true
    · exact Or.inr (Or.inl (by simp [splitDrop, ht]))
    · have ht' : isTerminator c = false := by simpa using ht
      exact Or.inr (Or.inr ⟨[], [], by simp [splitDrop], by simp [splitDrop, ht']⟩)
  | cons c1 tl ih =>
    cases tl with
    | nil =>
      by_cases ht1 : isTerminator c1 = true
      · by_cases ht : isTerminator c = true
        · exact Or.inl (by simp [splitDrop, ht1, ht])
        · have ht' : isTerminator c = false := by simpa using ht
          exact Or.inr (Or.inr ⟨[[]], [],
            by simp [splitDrop, ht1], by simp [splitDrop, ht1, ht']⟩)
      · have ht1' : isTerminator c1 = false := by simpa using ht1
        by_cases ht : isTerminator c = true
        · exact Or.inr (Or.inl (by simp [splitDrop, ht1', ht, consHead]))
        · have ht' : isTerminator c = false := by simpa using ht
          exact Or.inr (Or.inr ⟨[], [c1],
            by simp [splitDrop, ht1'], by simp [splitDrop, ht1', ht', consHead]⟩)
    | cons c2 cs =>
      have hstep : (c1 :: c2 :: cs) ++ [c] = c1 :: c2 :: (cs ++ [c]) := by simp
      by_cases ht1 : isTerminator c1 = true
      · by_cases ht2 : isTerminator c2 = true
        · have h1 : splitDrop ((c1 :: c2 :: cs) ++ [c]) = splitDrop ((c2 :: cs) ++ [c]) := by
            rw [hstep]
            simp [splitDrop, ht1, ht2]
          have h2 : splitDrop (c1 :: c2 :: cs) = splitDrop (c2 :: cs) := by
            simp [splitDrop, ht1, ht2]
          rcases ih with ha | hb | ⟨init, last2, hi1, hi2⟩
          · exact Or.inl (by rw [h1, h2, ha])
          · exact Or.inr (Or.inl (by rw [h1, h2, hb]))
          · exact Or.inr (Or.inr ⟨init, last2, by rw [h2, hi1], by rw [h1, hi2]⟩)
        · have ht2' : isTerminator c2 = false := by simpa using ht2
          have h1 : splitDrop ((c1 :: c2 :: cs) ++ [c])
              = [] :: splitDrop ((c2 :: cs) ++ [c]) := by
            rw [hstep]
            simp [splitDrop, ht1, ht2']
          have h2 : splitDrop (c1 :: c2 :: cs) = [] :: splitDrop (c2 :: cs) := by
            simp [splitDrop, ht1, ht2']
          rcases ih with ha | hb | ⟨init, last2, hi1, hi2⟩
          · exact Or.inl (by rw [h1, h2, ha])
          · exact Or.inr (Or.inl (by rw [h1, h2, hb]; rfl))
          · exact Or.inr (Or.inr ⟨[] :: init, last2,
              by rw [h2, hi1]; rfl, by rw [h1, hi2]; rfl⟩)
      · have ht1' : isTerminator c1 = false := by simpa using ht1
        have h1 : splitDrop ((c1 :: c2 :: cs) ++ [c])
            = consHead c1 (splitDrop ((c2 :: cs) ++ [c])) := by
          rw [hstep]
          simp [splitDrop, ht1']
        have h2 : splitDrop (c1 :: c2 :: cs) = consHead c1 (splitDrop (c2 :: cs)) := by
          simp [splitDrop, ht1']
        rcases ih with ha | hb | ⟨init, last2, hi1, hi2⟩
        · exact Or.inl (by rw [h1, h2, ha])
        · rcases splitDrop_parts (c2 :: cs) with ⟨p0, ps, hsd, _, _, _⟩
          refine Or.inr (Or.inl ?_)
          rw [h1, h2, hb, hsd]
          rfl
        · rcases init with _ | ⟨i0, irest⟩
          · refine Or.inr (Or.inr ⟨[], c1 :: last2, ?_, ?_⟩)
            · rw [h2, hi1]
              rfl
            · rw [h1, hi2]
              simp [consHead]
          · refine Or.inr (Or.inr ⟨(c1 :: i0) :: irest, last2, ?_, ?_⟩)
            · rw [h2, hi1]
              rfl
            · rw [h1, hi2]
              rfl

theorem sentencePieces_append_ws_char (c : Char) (hc : isSpaceChar c = true)
    (l : List Char) : sentencePieces (l ++ [c]) = sentencePieces l := by
  rcases splitDrop_append_char c l with h | h | ⟨init, last2, h1, h2⟩
  · rw [sentencePieces, sentencePieces, h]
  · rw [sentencePieces, sentencePieces, h]
    simp [List.filter_append, trim_nil]
  · rw [sentencePieces, sentencePieces, h1, h2]
    have htr : trim (last2 ++ [c]) = trim last2 := trim_append_ws_right last2 [c]
      (by intro x hx; rcases List.mem_singleton.mp hx with rfl; exact hc)
    by_cases h0 : trim last2 = [] <;>
      simp [List.filter_append, List.filter_cons, htr, h0]

theorem sentencePieces_ws_back (l w : List Char) (hw : ∀ c ∈ w, isSpaceChar c = true) :
    sentencePieces (l ++ w) = sentencePieces l := by
  induction w generalizing l with
  | nil => simp
  | cons c w2 ih =>
    have h1 : l ++ (c :: w2) = (l ++ [c]) ++ w2 := by simp
    rw [h1, ih (l ++ [c]) (fun x hx => hw x (by simp [hx])),
      sentencePieces_append_ws_char c (hw c (by simp)) l]

/-- Trimming a string does not change its full sentences: the removed prefix and
suffix are whitespace, which contributes no sentence piece and does not alter
any trimmed segment. -/
theorem sentencePieces_trim (l : List Char) :
    sentencePieces (trim l) = sentencePieces l := by
  have hd : l.dropWhile isSpaceChar
      = trim l ++ ((l.dropWhile isSpaceChar).reverse.takeWhile isSpaceChar).reverse := by
    have h0 : (l.dropWhile isSpaceChar).reverse
        = (l.dropWhile isSpaceChar).reverse.takeWhile isSpaceChar
          ++ (l.dropWhile isSpaceChar).reverse.dropWhile isSpaceChar :=
      (List.takeWhile_append_dropWhile _ _).symm
    have h1 := congrArg List.reverse h0
    rw [List.reverse_reverse, List.reverse_append] at h1
    exact h1
  calc sentencePieces (trim l)
      = sentencePieces (trim l
          ++ ((l.dropWhile isSpaceChar).reverse.takeWhile isSpaceChar).reverse) :=
        (sentencePieces_ws_back _ _
          (fun c hc => List.mem_takeWhile_imp (List.mem_reverse.mp hc))).symm
    _ = sentencePieces (l.dropWhile isSpaceChar) := by rw [← hd]
    _ = sentencePieces (l.takeWhile isSpaceChar ++ l.dropWhile isSpaceChar) :=
        (sentencePieces_ws_front _ _ (fun c hc => List.mem_takeWhile_imp hc)).symm
    _ = sentencePieces l := by rw [List.takeWhile_append_dropWhile]

/-! ## Claim C6: the overlap guarantee -/

/-- The chunk contains at least one sentence: splitting it at terminator runs
and dropping the segments that trim to nothing leaves something (exactly the
`currentSentences` computation of the overlap step). -/
def HasSentencePiece (c : List Char) : Prop :=
  (splitDrop c).filter (fun s => decide (trim s ≠ [])) ≠ []

theorem hasSentencePiece_iff (l : List Char) :
    HasSentencePiece l ↔ ∃ c ∈ l, isTerminator c = false ∧ isSpaceChar c = false := by
  unfold HasSentencePiece
  constructor
  · intro h
    rcases List.exists_mem_of_ne_nil _ h with ⟨p, hp⟩
    rcases List.mem_filter.mp hp with ⟨hpmem, hpd⟩
    simp only [decide_eq_true_eq] at hpd
    have hnotall : ¬∀ c ∈ p, isSpaceChar c = true := fun hall =>
      hpd ((trim_eq_nil_iff p).mpr hall)
    push_neg at hnotall
    rcases hnotall with ⟨c, hcp, hcs⟩
    rcases splitDrop_parts l with ⟨p0, ps, hsd, hpre, hinf, hterm⟩
    rw [hsd] at hpmem
    have hcl : c ∈ l := by
      rcases List.mem_cons.mp hpmem with rfl | hp2
      · exact hpre.isInfix.subset hcp
      · exact (hinf p hp2).subset hcp
    exact ⟨c, hcl, hterm p hpmem c hcp, by simpa using hcs⟩
  · rintro ⟨c, hcl, hcterm, hcs⟩
    rcases mem_splitDrop_of_mem l c hcl hcterm with ⟨p, hp, hcp⟩
    have hptrim : trim p ≠ [] := fun h0 => by
      have := (trim_eq_nil_iff p).mp h0 c hcp
      rw [hcs] at this
      cases this
    exact List.ne_nil_of_mem (List.mem_filter.mpr ⟨hp, by simpa using hptrim⟩)

theorem hasSentencePiece_of_trim (l : List Char) (h : HasSentencePiece (trim l)) :
    HasSentencePiece l := by
  rw [hasSentencePiece_iff] at h ⊢
  rcases h with ⟨c, hc, h1, h2⟩
  exact ⟨c, (trim_within l).subset hc, h1, h2⟩

theorem overlapWalk_mem (ov : Nat) :
    ∀ (rev acc : List (List Char)) (accLen : Nat),
      ∀ x ∈ (overlapWalk ov rev acc accLen).1, x ∈ acc ∨ ∃ p ∈ rev, x = trim p := by
  intro rev
  induction rev with
  | nil => intro acc accLen x hx; exact Or.inl hx
  | cons p rest ih =>
    intro acc accLen x hx
    simp only [overlapWalk] at hx
    by_cases hlt : accLen < ov
    · rw [if_pos hlt] at hx
      by_cases hs : trim p = []
      · rw [if_pos hs] at hx
        rcases ih acc accLen x hx with h1 | ⟨q, hq, hxq⟩
        · exact Or.inl h1
        · exact Or.inr ⟨q, List.mem_cons_of_mem _ hq, hxq⟩
      · rw [if_neg hs] at hx
        rcases ih (trim p :: acc) _ x hx with h1 | ⟨q, hq, hxq⟩
        · rcases List.mem_cons.mp h1 with rfl | h2
          · exact Or.inr ⟨p, by simp, rfl⟩
          · exact Or.inl h2
        · exact Or.inr ⟨q, List.mem_cons_of_mem _ hq, hxq⟩
    · rw [if_neg hlt] at hx
      exact Or.inl hx

theorem overlapWalk_acc_suffix (ov : Nat) :
    ∀ (rev acc : List (List Char)) (accLen : Nat),
      ∃ pre, (overlapWalk ov rev acc accLen).1 = pre ++ acc := by
  intro rev
  induction rev with
  | nil => intro acc accLen; exact ⟨[], rfl⟩
  | cons p rest ih =>
    intro acc accLen
    simp only [overlapWalk]
    by_cases hlt : accLen < ov
    · rw [if_pos hlt]
      by_cases hs : trim p = []
      · rw [if_pos hs]
        exact ih acc accLen
      · rw [if_neg hs]
        rcases ih (trim p :: acc) (accLen + (trim p).length) with ⟨pre, hpre⟩
        exact ⟨pre ++ [trim p], by rw [hpre]; simp⟩
    · rw [if_neg hlt]
      exact ⟨[], rfl⟩

theorem overlapWalk_ne_nil (ov : Nat) (hov : 0 < ov) (p : List Char)
    (rest : List (List Char)) (hp : trim p ≠ []) :
    (overlapWalk ov (p :: rest) [] 0).1 ≠ [] := by
  simp only [overlapWalk]
  rw [if_pos hov, if_neg hp]
  rcases overlapWalk_acc_suffix ov rest [trim p] (0 + (trim p).length) with ⟨pre, hpre⟩
  rw [hpre]
  simp

theorem joinDot_head_starts (x : List Char) (xs : List (List Char)) :
    x <+: joinDot (x :: xs) := by
  cases xs with
  | nil => exact List.prefix_refl x
  | cons y ys => exact ⟨'。' :: joinDot (y :: ys), rfl⟩

/-- `c2` shares at least one full sentence of overlap with `c1`: a whole segment
of the terminator split of `c1` (one that does not trim to nothing — a full
sentence of `c1`, not a mid-sentence fragment), taken trimmed, is nonempty,
terminator-free, an infix of `c1` and a prefix of `c2`. -/
def SharesOverlap (c1 c2 : List Char) : Prop :=
  ∃ q ∈ splitDrop c1, trim q ≠ [] ∧ (∀ ch ∈ trim q, isTerminator ch = false) ∧
    trim q <:+: c1 ∧ trim q <+: c2

/-- The per-pair guarantee of C6 (conditional on the earlier chunk containing a
sentence, as the claim states). -/
def OverlapRel (c1 c2 : List Char) : Prop := HasSentencePiece c1 → SharesOverlap c1 c2

/-- The loop invariant: emitted chunks are pairwise linked, and when the last
chunk has a sentence, the buffer starts with the trim of one of that chunk's
own split segments. -/
def OverlapInv (st : ChunkState) : Prop :=
  st.chunks.Chain' OverlapRel ∧
  (∀ c, st.chunks.getLast? = some c → HasSentencePiece c →
    ∃ q ∈ splitDrop c, trim q ≠ [] ∧ trim q <+: st.cur)

theorem overlapRel_of_link (st : ChunkState) (c : List Char)
    (hlast : st.chunks.getLast? = some c)
    (hinv : OverlapInv st) : OverlapRel c (trim st.cur) := by
  intro hsp
  rcases hinv.2 c hlast hsp with ⟨q, hqmem, hqne, hqpre⟩
  refine ⟨q, hqmem, hqne, ?_, ?_, ?_⟩
  · intro ch hch
    exact splitDrop_mem_noTerm c q hqmem ch ((trim_within q).subset hch)
  · exact (trim_within q).trans (splitDrop_mem_within c q hqmem)
  · exact trim_prefix_mono (trim q) st.cur hqpre (trim_idem q) hqne

theorem chain'_append_last {l : List (List Char)} {c : List Char}
    (h : l.Chain' OverlapRel)
    (hrel : ∀ x, l.getLast? = some x → OverlapRel x c) :
    (l ++ [c]).Chain' OverlapRel := by
  rw [List.chain'_append]
  refine ⟨h, List.chain'_singleton c, ?_⟩
  intro x hx y hy
  have hyc : c = y := by simpa using hy
  subst hyc
  exact hrel x (by simpa using hx)

/-- At a push with positive overlap, a chunk with a sentence passes one of its
own full sentences into the seed: the trim of a segment of the pushed chunk's
terminator split heads the rejoined overlap text.  (The walk draws from the
segments of the untrimmed buffer; `sentencePieces_trim` carries the sentence
over to the trimmed, pushed chunk.) -/
theorem seed_link (ov : Nat) (hov : 0 < ov) (cur : List Char)
    (hsp : HasSentencePiece (trim cur)) :
    ∃ q ∈ splitDrop (trim cur), trim q ≠ [] ∧
      trim q <+: joinDot (overlapWalk ov ((splitDrop cur).filter
          (fun x => decide (trim x ≠ []))).reverse [] 0).1
        ++ (if (overlapWalk ov ((splitDrop cur).filter
          (fun x => decide (trim x ≠ []))).reverse [] 0).1 = [] then [] else ['。']) := by
  have hsc : HasSentencePiece cur := hasSentencePiece_of_trim cur hsp
  unfold HasSentencePiece at hsc
  cases hrev : ((splitDrop cur).filter (fun x => decide (trim x ≠ []))).reverse with
  | nil =>
    exact absurd (List.reverse_eq_nil_iff.mp hrev) hsc
  | cons q qrest =>
    have hqmem : q ∈ (splitDrop cur).filter (fun x => decide (trim x ≠ [])) := by
      rw [← List.mem_reverse, hrev]
      simp
    have hqtrim : trim q ≠ [] := by
      have := (List.mem_filter.mp hqmem).2
      simpa using this
    have hwne : (overlapWalk ov (q :: qrest) [] 0).1 ≠ [] :=
      overlapWalk_ne_nil ov hov q qrest hqtrim
    cases hw : (overlapWalk ov (q :: qrest) [] 0).1 with
    | nil => exact absurd hw hwne
    | cons x xs =>
      have hxmem : x ∈ (overlapWalk ov (q :: qrest) [] 0).1 := by
        rw [hw]
        simp
      rcases overlapWalk_mem ov (q :: qrest) [] 0 x hxmem with hx0 | ⟨piece, hpiece, hxeq⟩
      · cases hx0
      · have hpmem : piece ∈ (splitDrop cur).filter (fun y => decide (trim y ≠ [])) := by
          rw [← List.mem_reverse, hrev]
          exact hpiece
        have hxsp : x ∈ sentencePieces cur := by
          unfold sentencePieces
          exact List.mem_map.mpr ⟨piece, hpmem, hxeq.symm⟩
        rw [← sentencePieces_trim cur] at hxsp
        unfold sentencePieces at hxsp
        rcases List.mem_map.mp hxsp with ⟨q2, hq2f, hq2x⟩
        rcases List.mem_filter.mp hq2f with ⟨hq2sd, hq2d⟩
        refine ⟨q2, hq2sd, by simpa using hq2d, ?_⟩
        rw [hq2x]
        exact (joinDot_head_starts x xs).trans (List.prefix_append _ _)

theorem chunkStep_push (chunkSize ov : Nat) (st : ChunkState) (s : List Char)
    (h : chunkSize < st.curLen + s.length ∧ st.cur ≠ []) :
    chunkStep chunkSize ov st s =
      ⟨st.chunks ++ [trim st.cur],
        (joinDot (overlapWalk ov ((splitDrop st.cur).filter
            (fun x => decide (trim x ≠ []))).reverse [] 0).1
          ++ (if (overlapWalk ov ((splitDrop st.cur).filter
            (fun x => decide (trim x ≠ []))).reverse [] 0).1 = [] then []
            else ['。'])) ++ s,
        (overlapWalk ov ((splitDrop st.cur).filter
            (fun x => decide (trim x ≠ []))).reverse [] 0).2 + s.length⟩ := by
  simp [chunkStep, h]

theorem chunkStep_no_push (chunkSize ov : Nat) (st : ChunkState) (s : List Char)
    (h : ¬(chunkSize < st.curLen + s.length ∧ st.cur ≠ [])) :
    chunkStep chunkSize ov st s = ⟨st.chunks, st.cur ++ s, st.curLen + s.length⟩ := by
  simp [chunkStep, h]

theorem overlapInv_step (chunkSize ov : Nat) (hov : 0 < ov) (st : ChunkState)
    (s : List Char) (hinv : OverlapInv st) :
    OverlapInv (chunkStep chunkSize ov st s) := by
  by_cases h : chunkSize < st.curLen + s.length ∧ st.cur ≠ []
  · rw [chunkStep_push chunkSize ov st s h]
    unfold OverlapInv
    dsimp only
    constructor
    · exact chain'_append_last hinv.1 (fun x hx => overlapRel_of_link st x hx hinv)
    · intro c hc hsp
      rw [List.getLast?_concat] at hc
      have hceq : c = trim st.cur := by
        injection hc with h1
        exact h1.symm
      subst hceq
      rcases seed_link ov hov st.cur hsp with ⟨q, hq1, hq2, hq3⟩
      exact ⟨q, hq1, hq2, hq3.trans (List.prefix_append _ _)⟩
  · rw [chunkStep_no_push chunkSize ov st s h]
    unfold OverlapInv
    dsimp only
    refine ⟨hinv.1, ?_⟩
    intro c hc hsp
    rcases hinv.2 c hc hsp with ⟨q, hqmem, hqne, hqpre⟩
    exact ⟨q, hqmem, hqne, hqpre.trans (List.prefix_append _ _)⟩

theorem overlapInv_foldl (chunkSize ov : Nat) (hov : 0 < ov) :
    ∀ (sents : List (List Char)) (st : ChunkState), OverlapInv st →
      OverlapInv (sents.foldl (chunkStep chunkSize ov) st) := by
  intro sents
  induction sents with
  | nil => intro st h; exact h
  | cons s rest ih =>
    intro st h
    exact ih _ (overlapInv_step chunkSize ov hov st s h)

/-- C6: with positive overlap, every pair of consecutive chunks whose earlier
member contains at least one sentence shares a full sentence of overlap content:
the trim of a whole segment of the earlier chunk's terminator split — a
nonempty, terminator-free full sentence, collected by the backward walk and
rejoined with the terminator — is an infix of the earlier chunk and a prefix of
the later chunk. -/
theorem chunk_overlap_coverage (text : List Char) (chunkSize ov : Nat)
    (hov : 0 < ov) :
    (chunkText text chunkSize ov).Chain'
      (fun c1 c2 => HasSentencePiece c1 → SharesOverlap c1 c2) := by
  have hinv0 : OverlapInv ⟨[], [], 0⟩ :=
    ⟨List.chain'_nil, fun c hc => by simp at hc⟩
  have hinv := overlapInv_foldl chunkSize ov hov (splitIntoSentences text) _ hinv0
  have hcoreEq : chunkCore text chunkSize ov =
      if trim ((splitIntoSentences text).foldl (chunkStep chunkSize ov) ⟨[], [], 0⟩).cur = []
      then ((splitIntoSentences text).foldl (chunkStep chunkSize ov) ⟨[], [], 0⟩).chunks
      else ((splitIntoSentences text).foldl (chunkStep chunkSize ov) ⟨[], [], 0⟩).chunks
        ++ [trim ((splitIntoSentences text).foldl (chunkStep chunkSize ov) ⟨[], [], 0⟩).cur] :=
    rfl
  have htextEq : chunkText text chunkSize ov =
      if 0 < (chunkCore text chunkSize ov).length then chunkCore text chunkSize ov
      else [text] := rfl
  rw [htextEq]
  by_cases hfall : 0 < (chunkCore text chunkSize ov).length
  · rw [if_pos hfall, hcoreEq]
    by_cases htc :
        trim ((splitIntoSentences text).foldl (chunkStep chunkSize ov) ⟨[], [], 0⟩).cur = []
    · rw [if_pos htc]
      exact hinv.1
    · rw [if_neg htc]
      exact chain'_append_last hinv.1 (fun x hx => overlapRel_of_link _ x hx hinv)
  · rw [if_neg hfall]
    exact List.chain'_singleton text

theorem chunk_overlap_coverage_witness :
    (0 : Nat) < 3 ∧
    (chunkText textAB 5 3).Chain'
      (fun c1 c2 => HasSentencePiece c1 → SharesOverlap c1 c2) :=
  ⟨by decide, chunk_overlap_coverage textAB 5 3 (by decide)⟩

end RagChunk
